import Mathlib

/-!
Verification of the tree-transformation core of `transform.py`.

Python values are embedded as the inductive `Val` (JSON-like: None, bool,
number, string, list, dict).  Python numbers are modelled as rationals, and
Python's `round` as round-half-to-even.  Dicts are insertion-ordered
association lists, matching CPython's ordered dicts; lookup takes the first
matching key.  Operations that can raise in Python (subscripting a missing
key, calling `.get` on a non-dict, arithmetic on a non-number) are modelled
in the `Except Unit` monad: `.error ()` means the Python code raises.
-/

namespace FigmaTransform

/-- A Python value as it appears in a Figma node tree. -/
inductive Val : Type where
  | null : Val
  | bool : Bool → Val
  | num : ℚ → Val
  | str : String → Val
  | list : List Val → Val
  | dict : List (String × Val) → Val
deriving Repr

/-- A Python dict: insertion-ordered association list. -/
abbrev Dict := List (String × Val)

/-- Python `d.get(k)` as an `Option`: the value at the first matching key. -/
def dictGet? : Dict → String → Option Val
  | [], _ => none
  | (k', v) :: rest, k => if k' = k then some v else dictGet? rest k

/-- Python `d.get(k, default)`. -/
def dictGetD (d : Dict) (k : String) (v₀ : Val) : Val :=
  (dictGet? d k).getD v₀

/-- Python `k in d`. -/
def hasKey (d : Dict) (k : String) : Bool :=
  (dictGet? d k).isSome

/-- Python `d[k] = v`: overwrite in place when the key exists, else append
(CPython dict assignment preserves the position of an existing key). -/
def dictSet (d : Dict) (k : String) (v : Val) : Dict :=
  if hasKey d k then d.map (fun p => if p.1 = k then (k, v) else p)
  else d ++ [(k, v)]

/-- Python truthiness of a value. -/
def truthy : Val → Bool
  | .null => false
  | .bool b => b
  | .num q => q ≠ 0
  | .str s => s ≠ ""
  | .list xs => !xs.isEmpty
  | .dict d => !d.isEmpty

/-- Whether the value is a dict. -/
def isDict : Val → Bool
  | .dict _ => true
  | _ => false

/-- Whether the value is a list (`isinstance(v, list)`). -/
def isList : Val → Bool
  | .list _ => true
  | _ => false

/-- Whether the value is `None`. -/
def isNull : Val → Bool
  | .null => true
  | _ => false

/-- Whether the value is the string `"SOLID"` (the comparison
`x == "SOLID"`). -/
def isSolidStr : Val → Bool
  | .str s => s == "SOLID"
  | _ => false

/-- Whether an optional value is a non-empty list. -/
def isNonemptyList : Option Val → Bool
  | some (.list (_ :: _)) => true
  | _ => false

/-- Python's `round` on a rational: round half to even (banker's rounding),
as CPython's `round` does on floats. -/
def pyRound (q : ℚ) : ℤ :=
  if q - Int.floor q < 1/2 then Int.floor q
  else if q - Int.floor q > 1/2 then Int.floor q + 1
  else if 2 ∣ Int.floor q then Int.floor q else Int.floor q + 1

/-- The twelve layout keys read verbatim from the node. -/
def directLayoutKeys : List String :=
  ["layoutMode", "primaryAxisAlignItems", "counterAxisAlignItems",
   "itemSpacing", "paddingLeft", "paddingRight", "paddingTop",
   "paddingBottom", "layoutAlign", "layoutGrow", "constraints",
   "clipsContent"]

/-- The sixteen `(key, value-or-None)` pairs of the `layout` literal built by
`extract_layout_info`, in source order; `b` is
`node.get("absoluteBoundingBox", {})` already known to be a dict. -/
def layoutPairs (node : Dict) (b : Dict) : Dict :=
  [("x", dictGetD b "x" .null),
   ("y", dictGetD b "y" .null),
   ("width", dictGetD b "width" .null),
   ("height", dictGetD b "height" .null)]
  ++ directLayoutKeys.map (fun k => (k, dictGetD node k .null))

/-- The function `extract_layout_info` (transform.py:3-22).  Builds the
sixteen-entry layout dict and drops every `None` value.  Raises (`.error`)
exactly when `absoluteBoundingBox` is present but not a dict, since then
`node.get("absoluteBoundingBox", {}).get(...)` calls `.get` on a non-dict. -/
def extract_layout_info (node : Dict) : Except Unit Dict :=
  match dictGetD node "absoluteBoundingBox" (.dict []) with
  | .dict b => .ok ((layoutPairs node b).filter (fun p => !isNull p.2))
  | _ => .error ()

/-- Reading one color channel for `round(color[k] * 255)`: raises when
`color` is not a dict, the key is missing, or the channel is not a number. -/
def channel (color : Val) (k : String) : Except Unit ℚ :=
  match color with
  | .dict c =>
    match dictGet? c k with
    | some (.num q) => .ok q
    | _ => .error ()
  | _ => .error ()

/-- The solid-paint check shared by fills and strokes (transform.py:31-38 and
43-50): when the paint's `type` equals `"SOLID"` and it has a `color` key,
build the `{r, g, b, a}` dict (channels × 255 rounded, `a` from `opacity`
defaulting to `1.0`); otherwise contribute nothing. -/
def solidPaint (paint : Dict) : Except Unit (Option Dict) :=
  if isSolidStr (dictGetD paint "type" .null) && hasKey paint "color" then
    let color := dictGetD paint "color" .null
    match channel color "r", channel color "g", channel color "b" with
    | .ok r, .ok g, .ok b =>
      .ok (some
        [("r", .num (pyRound (r * 255))),
         ("g", .num (pyRound (g * 255))),
         ("b", .num (pyRound (b * 255))),
         ("a", dictGetD paint "opacity" (.num 1))])
    | _, _, _ => .error ()
  else .ok none

/-- The fills block (transform.py:29-38): active only when `fills` is a
non-empty list; raises when its first entry is not a dict (`.get` on a
non-dict). -/
def fillEntries (node : Dict) : Except Unit Dict :=
  match dictGet? node "fills" with
  | some (.list (f :: _)) =>
    match f with
    | .dict paint =>
      match solidPaint paint with
      | .ok (some c) => .ok [("fill", .dict c)]
      | .ok none => .ok []
      | .error e => .error e
    | _ => .error ()
  | _ => .ok []

/-- The assignment `styles["strokeWeight"] = node["strokeWeight"]` guarded by
`"strokeWeight" in node` (transform.py:51-52) — note this check sits inside
the strokes block. -/
def weightEntry (node : Dict) : Dict :=
  match dictGet? node "strokeWeight" with
  | some w => [("strokeWeight", w)]
  | none => []

/-- The strokes block (transform.py:41-52): like fills but keyed `stroke`,
and additionally emits `strokeWeight` — only reachable when `strokes` is a
non-empty list, because the check is nested inside that condition. -/
def strokeEntries (node : Dict) : Except Unit Dict :=
  match dictGet? node "strokes" with
  | some (.list (s :: _)) =>
    match s with
    | .dict paint =>
      match solidPaint paint with
      | .ok (some c) => .ok ([("stroke", .dict c)] ++ weightEntry node)
      | .ok none => .ok (weightEntry node)
      | .error e => .error e
    | _ => .error ()
  | _ => .ok []

/-- The six typography keys copied verbatim (transform.py:55-57). -/
def typoKeys : List String :=
  ["fontName", "fontSize", "lineHeightPx", "letterSpacing",
   "textAlignHorizontal", "textAlignVertical"]

/-- The typography block: copy each present typography key verbatim. -/
def typoEntries (node : Dict) : Dict :=
  typoKeys.filterMap (fun k => (dictGet? node k).map (fun v => (k, v)))

/-- The comprehension `[e for e in effects if e.get("visible", True)]`: keeps
entries whose `visible` value is truthy, defaulting to kept when absent;
raises when an entry is not a dict. -/
def visibleFilter : List Val → Except Unit (List Val)
  | [] => .ok []
  | e :: rest =>
    match e with
    | .dict ed =>
      match visibleFilter rest with
      | .ok vs =>
        .ok (if truthy (dictGetD ed "visible" (.bool true)) then e :: vs else vs)
      | .error er => .error er
    | _ => .error ()

/-- The effects block (transform.py:60-63): active only when `effects` is a
non-empty list; emits the visible-filtered list when that is non-empty. -/
def effectsEntries (node : Dict) : Except Unit Dict :=
  match dictGet? node "effects" with
  | some (.list (e :: es)) =>
    match visibleFilter (e :: es) with
    | .ok [] => .ok []
    | .ok vs => .ok [("effects", .list vs)]
    | .error er => .error er
  | _ => .ok []

/-- The function `extract_style_info` (transform.py:25-65).  The four blocks
write pairwise-distinct keys into an initially empty dict, so the result is
their concatenation in source order: fill, stroke (+ strokeWeight),
typography, effects. -/
def extract_style_info (node : Dict) : Except Unit Dict :=
  match fillEntries node with
  | .error e => .error e
  | .ok fe =>
    match strokeEntries node with
    | .error e => .error e
    | .ok se =>
      match effectsEntries node with
      | .error e => .error e
      | .ok ee => .ok (fe ++ se ++ typoEntries node ++ ee)

/-- The fixed ignore set of `prune_node` (transform.py:69-74). -/
def ignoredKeys : List String :=
  ["id", "pluginData", "sharedPluginData", "componentId",
   "absoluteRenderBounds", "isMask", "isMaskOutline", "transitionNodeID",
   "visible", "layoutGrids", "styles", "characterStyleOverrides",
   "styleOverrideTable", "overrideValues", "componentPropertyReferences"]

/-- The function `prune_node` (transform.py:68-75): keep every entry whose
key is not in the ignore set, preserving order. -/
def prune_node (node : Dict) : Dict :=
  node.filter (fun p => !ignoredKeys.contains p.1)

/-- The pruned node with `layout` and `styles` written into it
(transform.py:82-84). -/
def baseOf (d lay sty : Dict) : Dict :=
  dictSet (dictSet (prune_node d) "layout" (.dict lay)) "styles" (.dict sty)

/-- A value found by `dictGet?` is structurally smaller than the dict. -/
theorem dictGet?_sizeOf {d : Dict} {k : String} {v : Val}
    (h : dictGet? d k = some v) : sizeOf v < sizeOf d := by
  induction d with
  | nil => simp [dictGet?] at h
  | cons p rest ih =>
    obtain ⟨k', v'⟩ := p
    by_cases hk : k' = k
    · subst hk
      simp [dictGet?] at h
      subst h
      simp
      omega
    · simp [dictGet?, hk] at h
      have := ih h
      simp
      omega

/-- The assignment `children = node.get("children", [])` followed by the
`isinstance(children, list) and children` guard: the list of children to
recurse into, empty whenever `children` is absent, not a list, or empty. -/
def childList (d : Dict) : List Val :=
  match dictGet? d "children" with
  | some (.list (c :: cs)) => c :: cs
  | _ => []

/-- The child list is always structurally smaller than its node value. -/
theorem childList_sizeOf_lt (d : Dict) :
    sizeOf (childList d) < sizeOf (Val.dict d) := by
  have hd : 1 ≤ sizeOf d := by cases d <;> simp <;> omega
  unfold childList
  cases hg : dictGet? d "children" with
  | none => simp; omega
  | some v =>
    cases v with
    | list xs =>
      cases xs with
      | nil => simp; omega
      | cons c cs =>
        have := dictGet?_sizeOf hg
        simp at this ⊢
        omega
    | null => simp; omega
    | bool b => simp; omega
    | num q => simp; omega
    | str s => simp; omega
    | dict d' => simp; omega

mutual

/-- The function `transform_node_tree` (transform.py:78-90): non-dicts
become the empty dict; a dict is pruned, given `layout` and `styles`, and,
when its `children` value is a non-empty list, has `children` overwritten
with the recursively transformed list.  Propagates any error raised by the
extractors on this node or a descendant. -/
def transform_node_tree : Val → Except Unit Val
  | .dict d =>
    match extract_layout_info d with
    | .error e => .error e
    | .ok lay =>
      match extract_style_info d with
      | .error e => .error e
      | .ok sty =>
        if (childList d).isEmpty then .ok (.dict (baseOf d lay sty))
        else
          match transformList (childList d) with
          | .ok tcs =>
            .ok (.dict (dictSet (baseOf d lay sty) "children" (.list tcs)))
          | .error e => .error e
  | _ => .ok (.dict [])
termination_by v => sizeOf v
decreasing_by
  exact childList_sizeOf_lt _

/-- The comprehension `[transform_node_tree(c) for c in children]`, stopping
at the first error. -/
def transformList : List Val → Except Unit (List Val)
  | [] => .ok []
  | c :: cs =>
    match transform_node_tree c with
    | .error e => .error e
    | .ok t =>
      match transformList cs with
      | .error e => .error e
      | .ok ts => .ok (t :: ts)
termination_by cs => sizeOf cs
decreasing_by
  all_goals simp
  all_goals omega

end

/-- Whether a color channel key holds a number. -/
def numAt (c : Dict) (k : String) : Bool :=
  match dictGet? c k with
  | some (.num _) => true
  | _ => false

/-- Well-typedness of a first fill/stroke entry: it must be a dict, and when
it passes the solid-with-color test its color must be a dict with numeric
`r`, `g`, `b`.  Exactly the conditions under which the paint blocks of
`extract_style_info` cannot raise. -/
def paintOK : Val → Bool
  | .dict paint =>
    if isSolidStr (dictGetD paint "type" .null) && hasKey paint "color" then
      match dictGetD paint "color" .null with
      | .dict c => numAt c "r" && numAt c "g" && numAt c "b"
      | _ => false
    else true
  | _ => false

/-- Well-typedness of a `fills`/`strokes` value: when it is a non-empty
list, its first entry must be `paintOK`. -/
def firstPaintOK : Option Val → Bool
  | some (.list (p :: _)) => paintOK p
  | _ => true

/-- Well-typedness of an `effects` value: when it is a list, every entry
must be a dict. -/
def effectsOK : Option Val → Bool
  | some (.list es) => es.all isDict
  | _ => true

/-- Well-typedness of a single node: `absoluteBoundingBox`, when present, is
a dict; first fills/strokes entries and effects entries are well-typed.
Exactly the conditions under which the extractors cannot raise on this
node. -/
def nodeOK (d : Dict) : Bool :=
  (match dictGet? d "absoluteBoundingBox" with
   | some v => isDict v
   | none => true)
  && firstPaintOK (dictGet? d "fills")
  && firstPaintOK (dictGet? d "strokes")
  && effectsOK (dictGet? d "effects")

mutual

/-- Recursive well-typedness: the node and every descendant reached through
non-empty `children` lists is well-typed. -/
def wellTyped : Val → Bool
  | .dict d => nodeOK d && wellTypedList (childList d)
  | _ => true
termination_by v => sizeOf v
decreasing_by
  exact childList_sizeOf_lt _

/-- Recursive well-typedness of a list of child values. -/
def wellTypedList : List Val → Bool
  | [] => true
  | c :: cs => wellTyped c && wellTypedList cs
termination_by cs => sizeOf cs
decreasing_by
  all_goals simp
  all_goals omega

end

mutual

/-- The output-tree invariant of the amended claim about `layout`/`styles`:
every node of the tree is either the empty dict (produced from a non-dict
input) or carries both a `layout` and a `styles` key, and its children
recursively satisfy the same. -/
def outOK : Val → Bool
  | .dict d =>
    (d.isEmpty || (hasKey d "layout" && hasKey d "styles"))
      && outListOK (childList d)
  | _ => true
termination_by v => sizeOf v
decreasing_by
  exact childList_sizeOf_lt _

/-- The output-tree invariant over a list of children. -/
def outListOK : List Val → Bool
  | [] => true
  | c :: cs => outOK c && outListOK cs
termination_by cs => sizeOf cs
decreasing_by
  all_goals simp
  all_goals omega

end

/-- The filter of the spec's effects sentence: an entry is kept when its
`visible` field is `true` or absent. -/
def visibleTrueOrAbsent : Val → Bool
  | .dict ed =>
    match dictGet? ed "visible" with
    | none => true
    | some (.bool b) => b
    | some _ => false
  | _ => true

/-! ### Lemmas about dict operations -/

theorem dictGet?_append_left {d₁ : Dict} {k : String} {v : Val} (d₂ : Dict)
    (h : dictGet? d₁ k = some v) : dictGet? (d₁ ++ d₂) k = some v := by
  induction d₁ with
  | nil => simp [dictGet?] at h
  | cons p rest ih =>
    obtain ⟨k', v'⟩ := p
    by_cases hk : k' = k
    · subst hk
      simp_all [dictGet?]
    · simp_all [dictGet?, hk]

theorem dictGet?_append_right {d₁ : Dict} {k : String} (d₂ : Dict)
    (h : dictGet? d₁ k = none) : dictGet? (d₁ ++ d₂) k = dictGet? d₂ k := by
  induction d₁ with
  | nil => simp [dictGet?]
  | cons p rest ih =>
    obtain ⟨k', v'⟩ := p
    by_cases hk : k' = k
    · subst hk
      simp [dictGet?] at h
    · simp_all [dictGet?, hk]

theorem dictGet?_none_of_keys {d : Dict} {k : String}
    (h : ∀ p ∈ d, p.1 ≠ k) : dictGet? d k = none := by
  induction d with
  | nil => simp [dictGet?]
  | cons p rest ih =>
    obtain ⟨k', v'⟩ := p
    have hk : k' ≠ k := h (k', v') (List.mem_cons_self _ _)
    simp only [dictGet?, if_neg hk]
    exact ih (fun q hq => h q (List.mem_cons_of_mem _ hq))

theorem dictGet?_mapset_same {d : Dict} {k : String} (v : Val)
    (h : (dictGet? d k).isSome = true) :
    dictGet? (d.map (fun p => if p.1 = k then (k, v) else p)) k = some v := by
  induction d with
  | nil => simp [dictGet?] at h
  | cons p rest ih =>
    obtain ⟨k₀, v₀⟩ := p
    by_cases hk : k₀ = k
    · have hhead : (if (k₀, v₀).1 = k then ((k, v) : String × Val) else (k₀, v₀))
          = (k, v) := by simp [hk]
      rw [List.map_cons, hhead]
      simp [dictGet?]
    · have hhead : (if (k₀, v₀).1 = k then ((k, v) : String × Val) else (k₀, v₀))
          = (k₀, v₀) := by simp [hk]
      rw [List.map_cons, hhead]
      simp only [dictGet?, if_neg hk]
      exact ih (by simpa [dictGet?, hk] using h)

theorem dictGet?_mapset_other {d : Dict} {k k' : String} (v : Val)
    (h : k' ≠ k) :
    dictGet? (d.map (fun p => if p.1 = k then (k, v) else p)) k' =
      dictGet? d k' := by
  induction d with
  | nil => simp [dictGet?]
  | cons p rest ih =>
    obtain ⟨k₀, v₀⟩ := p
    by_cases hk : k₀ = k
    · have hhead : (if (k₀, v₀).1 = k then ((k, v) : String × Val) else (k₀, v₀))
          = (k, v) := by simp [hk]
      rw [List.map_cons, hhead]
      have h1 : ¬(k = k') := fun hc => h hc.symm
      have h2 : ¬(k₀ = k') := by rw [hk]; exact h1
      simp only [dictGet?, if_neg h1, if_neg h2]
      exact ih
    · have hhead : (if (k₀, v₀).1 = k then ((k, v) : String × Val) else (k₀, v₀))
          = (k₀, v₀) := by simp [hk]
      rw [List.map_cons, hhead]
      by_cases hk' : k₀ = k'
      · simp [dictGet?, hk']
      · simp only [dictGet?, if_neg hk']
        exact ih

theorem dictGet?_dictSet_same (d : Dict) (k : String) (v : Val) :
    dictGet? (dictSet d k v) k = some v := by
  unfold dictSet
  by_cases h : hasKey d k = true
  · rw [if_pos h]
    exact dictGet?_mapset_same v (by unfold hasKey at h; exact h)
  · rw [if_neg h]
    have hn : dictGet? d k = none := by
      unfold hasKey at h
      cases hg : dictGet? d k with
      | none => rfl
      | some w => rw [hg] at h; simp at h
    rw [dictGet?_append_right _ hn]
    simp [dictGet?]

theorem dictGet?_dictSet_other (d : Dict) {k k' : String} (v : Val)
    (h : k' ≠ k) : dictGet? (dictSet d k v) k' = dictGet? d k' := by
  unfold dictSet
  by_cases hh : hasKey d k = true
  · rw [if_pos hh]
    exact dictGet?_mapset_other v h
  · rw [if_neg hh]
    cases hg : dictGet? d k' with
    | some w => exact dictGet?_append_left _ hg
    | none =>
      rw [dictGet?_append_right _ hg]
      have h1 : ¬(k = k') := fun hc => h hc.symm
      simp [dictGet?, h1]

theorem hasKey_dictSet_same (d : Dict) (k : String) (v : Val) :
    hasKey (dictSet d k v) k = true := by
  unfold hasKey
  rw [dictGet?_dictSet_same]
  rfl

theorem hasKey_dictSet_other (d : Dict) {k k' : String} (v : Val)
    (h : k' ≠ k) : hasKey (dictSet d k v) k' = hasKey d k' := by
  unfold hasKey
  rw [dictGet?_dictSet_other d v h]

/-! ### Lemmas about `prune_node` and `baseOf` -/

theorem dictGet?_prune (d : Dict) {k : String}
    (h : ignoredKeys.contains k = false) :
    dictGet? (prune_node d) k = dictGet? d k := by
  induction d with
  | nil => rfl
  | cons p rest ih =>
    obtain ⟨k', v'⟩ := p
    by_cases hk : k' = k
    · subst hk
      simp only [prune_node, List.filter_cons, h, Bool.not_false, if_true]
      simp [dictGet?, ih]
    · simp only [prune_node, List.filter_cons]
      by_cases hi : ignoredKeys.contains k' = true
      · simp only [hi, Bool.not_true, if_false]
        simp only [dictGet?, if_neg hk]
        exact ih
      · simp only [Bool.not_eq_true] at hi
        simp only [hi, Bool.not_false, if_true]
        simp only [dictGet?, if_neg hk]
        exact ih

theorem mem_prune_not_ignored {d : Dict} {p : String × Val}
    (h : p ∈ prune_node d) : ignoredKeys.contains p.1 = false := by
  unfold prune_node at h
  have := List.of_mem_filter h
  simpa using this

theorem dictGet?_baseOf_layout (d lay sty : Dict) :
    dictGet? (baseOf d lay sty) "layout" = some (.dict lay) := by
  unfold baseOf
  rw [dictGet?_dictSet_other _ _ (by decide)]
  exact dictGet?_dictSet_same _ _ _

theorem dictGet?_baseOf_styles (d lay sty : Dict) :
    dictGet? (baseOf d lay sty) "styles" = some (.dict sty) := by
  unfold baseOf
  exact dictGet?_dictSet_same _ _ _

theorem dictGet?_baseOf_other (d lay sty : Dict) {k : String}
    (h₁ : k ≠ "layout") (h₂ : k ≠ "styles")
    (h₃ : ignoredKeys.contains k = false) :
    dictGet? (baseOf d lay sty) k = dictGet? d k := by
  unfold baseOf
  rw [dictGet?_dictSet_other _ _ h₂, dictGet?_dictSet_other _ _ h₁]
  exact dictGet?_prune d h₃

/-! ### Decomposition of `extract_style_info` -/

theorem style_ok_elim {node : Dict} {s : Dict}
    (h : extract_style_info node = .ok s) :
    ∃ fe se ee, fillEntries node = .ok fe ∧ strokeEntries node = .ok se ∧
      effectsEntries node = .ok ee ∧ s = fe ++ se ++ typoEntries node ++ ee := by
  unfold extract_style_info at h
  cases hf : fillEntries node with
  | error e => rw [hf] at h; simp at h
  | ok fe =>
    rw [hf] at h
    cases hs : strokeEntries node with
    | error e => rw [hs] at h; simp at h
    | ok se =>
      rw [hs] at h
      cases he : effectsEntries node with
      | error e => rw [he] at h; simp at h
      | ok ee =>
        rw [he] at h
        simp only [Except.ok.injEq] at h
        exact ⟨fe, se, ee, rfl, rfl, rfl, h.symm⟩

theorem fillEntries_keys {node : Dict} {fe : Dict}
    (h : fillEntries node = .ok fe) : ∀ p ∈ fe, p.1 = "fill" := by
  unfold fillEntries at h
  intro p hp
  cases hg : dictGet? node "fills" with
  | none => rw [hg] at h; simp at h; subst h; simp at hp
  | some v =>
    rw [hg] at h
    cases v with
    | list xs =>
      cases xs with
      | nil => simp at h; subst h; simp at hp
      | cons f rest =>
        cases f with
        | dict paint =>
          simp only at h
          cases hs : solidPaint paint with
          | error e => rw [hs] at h; simp at h
          | ok r =>
            rw [hs] at h
            cases r with
            | none => simp at h; subst h; simp at hp
            | some c =>
              simp at h
              subst h
              simp at hp
              simp [hp]
        | null => simp at h
        | bool b => simp at h
        | num q => simp at h
        | str s => simp at h
        | list l => simp at h
    | null => simp at h; subst h; simp at hp
    | bool b => simp at h; subst h; simp at hp
    | num q => simp at h; subst h; simp at hp
    | str s => simp at h; subst h; simp at hp
    | dict dd => simp at h; subst h; simp at hp

theorem dictGet?_append_of_right_none {d₁ d₂ : Dict} {k : String}
    (h : dictGet? d₂ k = none) : dictGet? (d₁ ++ d₂) k = dictGet? d₁ k := by
  cases hg : dictGet? d₁ k with
  | some w => exact dictGet?_append_left _ hg
  | none => rw [dictGet?_append_right _ hg]; exact h

theorem weightEntry_get (node : Dict) :
    dictGet? (weightEntry node) "strokeWeight" = dictGet? node "strokeWeight" := by
  unfold weightEntry
  cases hg : dictGet? node "strokeWeight" <;> simp [dictGet?]

theorem weightEntry_keys (node : Dict) :
    ∀ p ∈ weightEntry node, p.1 = "strokeWeight" := by
  unfold weightEntry
  cases hg : dictGet? node "strokeWeight" with
  | none => intro p hp; simp at hp
  | some w => intro p hp; simp at hp; simp [hp]

theorem strokeEntries_elim {node se : Dict}
    (h : strokeEntries node = .ok se) :
    (isNonemptyList (dictGet? node "strokes") = false ∧ se = []) ∨
    (isNonemptyList (dictGet? node "strokes") = true ∧
      (se = weightEntry node ∨
       ∃ c, se = ("stroke", Val.dict c) :: weightEntry node)) := by
  unfold strokeEntries at h
  cases hg : dictGet? node "strokes" with
  | none => rw [hg] at h; simp at h; exact Or.inl ⟨by simp [isNonemptyList], h⟩
  | some v =>
    rw [hg] at h
    cases v with
    | list xs =>
      cases xs with
      | nil => simp at h; exact Or.inl ⟨by simp [isNonemptyList], h⟩
      | cons s0 rest =>
        cases s0 with
        | dict paint =>
          simp only at h
          cases hs : solidPaint paint with
          | error e => rw [hs] at h; simp at h
          | ok r =>
            rw [hs] at h
            cases r with
            | none =>
              simp at h
              exact Or.inr ⟨by simp [isNonemptyList], Or.inl h.symm⟩
            | some c =>
              simp at h
              exact Or.inr ⟨by simp [isNonemptyList], Or.inr ⟨c, h.symm⟩⟩
        | null => simp at h
        | bool b => simp at h
        | num q => simp at h
        | str s => simp at h
        | list l => simp at h
    | null => simp at h; exact Or.inl ⟨by simp [isNonemptyList], h⟩
    | bool b => simp at h; exact Or.inl ⟨by simp [isNonemptyList], h⟩
    | num q => simp at h; exact Or.inl ⟨by simp [isNonemptyList], h⟩
    | str s => simp at h; exact Or.inl ⟨by simp [isNonemptyList], h⟩
    | dict dd => simp at h; exact Or.inl ⟨by simp [isNonemptyList], h⟩

theorem strokeEntries_keys {node se : Dict}
    (h : strokeEntries node = .ok se) :
    ∀ p ∈ se, p.1 = "stroke" ∨ p.1 = "strokeWeight" := by
  intro p hp
  rcases strokeEntries_elim h with ⟨_, rfl⟩ | ⟨_, hse | ⟨c, hse⟩⟩
  · simp at hp
  · subst hse
    exact Or.inr (weightEntry_keys node p hp)
  · subst hse
    rcases List.mem_cons.mp hp with rfl | hp'
    · exact Or.inl rfl
    · exact Or.inr (weightEntry_keys node p hp')

theorem typoEntries_keys (node : Dict) :
    ∀ p ∈ typoEntries node, p.1 ∈ typoKeys := by
  intro p hp
  unfold typoEntries at hp
  rcases List.mem_filterMap.mp hp with ⟨k, hk, hf⟩
  cases hg : dictGet? node k with
  | none => rw [hg] at hf; simp at hf
  | some v =>
    rw [hg] at hf
    simp at hf
    rw [← hf]
    simpa using hk

theorem typoEntries_get (node : Dict) {k : String} (hk : k ∈ typoKeys) :
    dictGet? (typoEntries node) k = dictGet? node k := by
  revert hk
  unfold typoEntries typoKeys
  intro hk
  fin_cases hk <;>
    · cases h1 : dictGet? node "fontName" <;>
      cases h2 : dictGet? node "fontSize" <;>
      cases h3 : dictGet? node "lineHeightPx" <;>
      cases h4 : dictGet? node "letterSpacing" <;>
      cases h5 : dictGet? node "textAlignHorizontal" <;>
      cases h6 : dictGet? node "textAlignVertical" <;>
      simp [dictGet?, h1, h2, h3, h4, h5, h6]

theorem effectsEntries_keys {node ee : Dict}
    (h : effectsEntries node = .ok ee) : ∀ p ∈ ee, p.1 = "effects" := by
  intro p hp
  unfold effectsEntries at h
  cases hg : dictGet? node "effects" with
  | none => rw [hg] at h; simp at h; subst h; simp at hp
  | some v =>
    rw [hg] at h
    cases v with
    | list xs =>
      cases xs with
      | nil => simp at h; subst h; simp at hp
      | cons e es =>
        simp only at h
        cases hv : visibleFilter (e :: es) with
        | error er => rw [hv] at h; simp at h
        | ok vs =>
          rw [hv] at h
          cases vs with
          | nil => simp at h; subst h; simp at hp
          | cons v0 vrest =>
            simp at h
            subst h
            simp at hp
            simp [hp]
    | null => simp at h; subst h; simp at hp
    | bool b => simp at h; subst h; simp at hp
    | num q => simp at h; subst h; simp at hp
    | str s => simp at h; subst h; simp at hp
    | dict dd => simp at h; subst h; simp at hp

theorem fillEntries_get_none {node fe : Dict} {k : String}
    (h : fillEntries node = .ok fe) (hk : k ≠ "fill") :
    dictGet? fe k = none :=
  dictGet?_none_of_keys (fun p hp h1 =>
    hk (h1.symm.trans (fillEntries_keys h p hp)))

theorem strokeEntries_get_none {node se : Dict} {k : String}
    (h : strokeEntries node = .ok se) (hk1 : k ≠ "stroke")
    (hk2 : k ≠ "strokeWeight") : dictGet? se k = none := by
  refine dictGet?_none_of_keys (fun p hp h1 => ?_)
  rcases strokeEntries_keys h p hp with h2 | h2 <;> rw [h1] at h2
  · exact hk1 h2
  · exact hk2 h2

theorem typoEntries_get_none (node : Dict) {k : String}
    (hk : k ∉ typoKeys) : dictGet? (typoEntries node) k = none := by
  refine dictGet?_none_of_keys (fun p hp h1 => ?_)
  exact hk (h1 ▸ typoEntries_keys node p hp)

theorem effectsEntries_get_none {node ee : Dict} {k : String}
    (h : effectsEntries node = .ok ee) (hk : k ≠ "effects") :
    dictGet? ee k = none :=
  dictGet?_none_of_keys (fun p hp h1 =>
    hk (h1.symm.trans (effectsEntries_keys h p hp)))

/-! ### Computation lemmas for the style blocks -/

theorem solidPaint_solid {paint c : Dict} {r g b : ℚ}
    (ht : dictGet? paint "type" = some (.str "SOLID"))
    (hc : dictGet? paint "color" = some (.dict c))
    (hr : dictGet? c "r" = some (.num r))
    (hg : dictGet? c "g" = some (.num g))
    (hb : dictGet? c "b" = some (.num b)) :
    solidPaint paint = .ok (some
      [("r", .num (pyRound (r * 255))),
       ("g", .num (pyRound (g * 255))),
       ("b", .num (pyRound (b * 255))),
       ("a", dictGetD paint "opacity" (.num 1))]) := by
  unfold solidPaint
  have h1 : isSolidStr (dictGetD paint "type" .null) = true := by
    simp [dictGetD, ht, isSolidStr]
  have h2 : hasKey paint "color" = true := by simp [hasKey, hc]
  have h3 : dictGetD paint "color" .null = .dict c := by simp [dictGetD, hc]
  have h4 : channel (dictGetD paint "color" .null) "r" = .ok r := by
    rw [h3]; simp [channel, hr]
  have h5 : channel (dictGetD paint "color" .null) "g" = .ok g := by
    rw [h3]; simp [channel, hg]
  have h6 : channel (dictGetD paint "color" .null) "b" = .ok b := by
    rw [h3]; simp [channel, hb]
  rw [if_pos (by rw [h1, h2]; rfl)]
  simp only [h4, h5, h6]

theorem solidPaint_skip {paint : Dict}
    (h : (isSolidStr (dictGetD paint "type" .null)
          && hasKey paint "color") = false) :
    solidPaint paint = .ok none := by
  unfold solidPaint
  rw [if_neg (by rw [h]; simp)]

theorem fillEntries_first {node : Dict} {paint : Dict} {rest : List Val}
    (hf : dictGet? node "fills" = some (.list (.dict paint :: rest))) :
    fillEntries node =
      (match solidPaint paint with
       | .ok (some c) => .ok [("fill", .dict c)]
       | .ok none => .ok []
       | .error e => .error e) := by
  unfold fillEntries
  rw [hf]

theorem fillEntries_inactive {node : Dict}
    (h : isNonemptyList (dictGet? node "fills") = false) :
    fillEntries node = .ok [] := by
  unfold fillEntries
  cases hg : dictGet? node "fills" with
  | none => rfl
  | some v =>
    rw [hg] at h
    cases v with
    | list xs =>
      cases xs with
      | nil => rfl
      | cons f rest => simp [isNonemptyList] at h
    | null => rfl
    | bool b => rfl
    | num q => rfl
    | str s => rfl
    | dict dd => rfl

theorem strokeEntries_inactive {node : Dict}
    (h : isNonemptyList (dictGet? node "strokes") = false) :
    strokeEntries node = .ok [] := by
  unfold strokeEntries
  cases hg : dictGet? node "strokes" with
  | none => rfl
  | some v =>
    rw [hg] at h
    cases v with
    | list xs =>
      cases xs with
      | nil => rfl
      | cons s0 rest => simp [isNonemptyList] at h
    | null => rfl
    | bool b => rfl
    | num q => rfl
    | str s => rfl
    | dict dd => rfl

theorem effectsEntries_inactive {node : Dict}
    (h : isNonemptyList (dictGet? node "effects") = false) :
    effectsEntries node = .ok [] := by
  unfold effectsEntries
  cases hg : dictGet? node "effects" with
  | none => rfl
  | some v =>
    rw [hg] at h
    cases v with
    | list xs =>
      cases xs with
      | nil => rfl
      | cons e es => simp [isNonemptyList] at h
    | null => rfl
    | bool b => rfl
    | num q => rfl
    | str s => rfl
    | dict dd => rfl

theorem effectsEntries_elim2 {node ee : Dict} {e : Val} {es : List Val}
    (h : effectsEntries node = .ok ee)
    (hg : dictGet? node "effects" = some (.list (e :: es))) :
    ∃ vs, visibleFilter (e :: es) = .ok vs ∧
      ((vs = [] ∧ ee = []) ∨ (vs ≠ [] ∧ ee = [("effects", .list vs)])) := by
  unfold effectsEntries at h
  rw [hg] at h
  simp only at h
  cases hv : visibleFilter (e :: es) with
  | error er => rw [hv] at h; simp at h
  | ok vs =>
    rw [hv] at h
    refine ⟨vs, rfl, ?_⟩
    cases vs with
    | nil => simp at h; exact Or.inl ⟨rfl, h⟩
    | cons v0 vr =>
      simp at h
      exact Or.inr ⟨by simp, h.symm⟩

theorem extract_style_intro {node fe se ee : Dict}
    (hf : fillEntries node = .ok fe) (hs : strokeEntries node = .ok se)
    (he : effectsEntries node = .ok ee) :
    extract_style_info node = .ok (fe ++ se ++ typoEntries node ++ ee) := by
  unfold extract_style_info
  rw [hf, hs, he]

/-! ### The visibility filter versus the spec's filter -/

theorem visibleFilter_spec {es : List Val} {vs : List Val}
    (h : visibleFilter es = .ok vs)
    (hb : ∀ e ∈ es, ∀ ed, e = .dict ed →
      (dictGet? ed "visible" = none ∨ ∃ b, dictGet? ed "visible" = some (.bool b))) :
    vs = es.filter visibleTrueOrAbsent := by
  induction es generalizing vs with
  | nil => simp [visibleFilter] at h; simp [h]
  | cons e rest ih =>
    unfold visibleFilter at h
    cases e with
    | dict ed =>
      simp only at h
      cases hv : visibleFilter rest with
      | error er => rw [hv] at h; simp at h
      | ok vr =>
        rw [hv] at h
        have hrec : vr = rest.filter visibleTrueOrAbsent :=
          ih hv (fun e' he' => hb e' (List.mem_cons_of_mem _ he'))
        have hvis := hb (.dict ed) (List.mem_cons_self _ _) ed rfl
        rcases hvis with hnone | ⟨b, hsome⟩
        · have h1 : truthy (dictGetD ed "visible" (.bool true)) = true := by
            simp [dictGetD, hnone, truthy]
          have h2 : visibleTrueOrAbsent (.dict ed) = true := by
            simp [visibleTrueOrAbsent, hnone]
          rw [h1] at h
          simp at h
          rw [← h, List.filter_cons, h2]
          simp [hrec]
        · have h1 : truthy (dictGetD ed "visible" (.bool true)) = b := by
            simp [dictGetD, hsome, truthy]
          have h2 : visibleTrueOrAbsent (.dict ed) = b := by
            simp [visibleTrueOrAbsent, hsome]
          rw [h1] at h
          cases b with
          | true =>
            simp at h
            rw [← h, List.filter_cons, h2]
            simp [hrec]
          | false =>
            simp at h
            rw [← h, List.filter_cons, h2]
            simp [hrec]
    | null => simp at h
    | bool b => simp at h
    | num q => simp at h
    | str s => simp at h
    | list l => simp at h

/-! ### Structure lemmas for `extract_layout_info` -/

theorem extract_layout_bbox {node b : Dict}
    (h : dictGet? node "absoluteBoundingBox" = some (.dict b)) :
    extract_layout_info node =
      .ok ((layoutPairs node b).filter (fun p => !isNull p.2)) := by
  unfold extract_layout_info
  simp [dictGetD, h]

theorem extract_layout_no_bbox {node : Dict}
    (h : dictGet? node "absoluteBoundingBox" = none) :
    extract_layout_info node =
      .ok ((layoutPairs node []).filter (fun p => !isNull p.2)) := by
  unfold extract_layout_info
  simp [dictGetD, h]

theorem extract_layout_elim {node lay : Dict}
    (h : extract_layout_info node = .ok lay) :
    ∃ b, dictGetD node "absoluteBoundingBox" (.dict []) = .dict b ∧
      lay = (layoutPairs node b).filter (fun p => !isNull p.2) := by
  unfold extract_layout_info at h
  cases hm : dictGetD node "absoluteBoundingBox" (.dict []) with
  | dict b =>
    rw [hm] at h
    simp at h
    exact ⟨b, rfl, h.symm⟩
  | null => rw [hm] at h; simp at h
  | bool b => rw [hm] at h; simp at h
  | num q => rw [hm] at h; simp at h
  | str s => rw [hm] at h; simp at h
  | list l => rw [hm] at h; simp at h

/-! ### Structure lemmas for `transform_node_tree` -/

theorem transform_not_dict {v : Val} (h : isDict v = false) :
    transform_node_tree v = .ok (.dict []) := by
  cases v with
  | dict d => simp [isDict] at h
  | null => simp [transform_node_tree]
  | bool b => simp [transform_node_tree]
  | num q => simp [transform_node_tree]
  | str s => simp [transform_node_tree]
  | list l => simp [transform_node_tree]

theorem transform_dict_intro_nochild {d lay sty : Dict}
    (hl : extract_layout_info d = .ok lay)
    (hs : extract_style_info d = .ok sty) (hc : childList d = []) :
    transform_node_tree (.dict d) = .ok (.dict (baseOf d lay sty)) := by
  unfold transform_node_tree
  rw [hl, hs, hc]
  rfl

theorem transform_dict_intro_child {d lay sty : Dict} {tcs : List Val}
    (hl : extract_layout_info d = .ok lay)
    (hs : extract_style_info d = .ok sty)
    (hc : (childList d).isEmpty = false)
    (ht : transformList (childList d) = .ok tcs) :
    transform_node_tree (.dict d) =
      .ok (.dict (dictSet (baseOf d lay sty) "children" (.list tcs))) := by
  unfold transform_node_tree
  rw [hl, hs, hc, ht]
  rfl

theorem transform_dict_elim {d : Dict} {t : Val}
    (h : transform_node_tree (.dict d) = .ok t) :
    ∃ lay sty, extract_layout_info d = .ok lay ∧
      extract_style_info d = .ok sty ∧
      ((childList d = [] ∧ t = .dict (baseOf d lay sty)) ∨
       ((childList d).isEmpty = false ∧ ∃ tcs,
         transformList (childList d) = .ok tcs ∧
         t = .dict (dictSet (baseOf d lay sty) "children" (.list tcs)))) := by
  unfold transform_node_tree at h
  cases hl : extract_layout_info d with
  | error e => rw [hl] at h; simp at h
  | ok lay =>
    rw [hl] at h
    cases hs : extract_style_info d with
    | error e => rw [hs] at h; simp at h
    | ok sty =>
      rw [hs] at h
      simp only at h
      by_cases hc : (childList d).isEmpty = true
      · rw [if_pos hc] at h
        simp at h
        exact ⟨lay, sty, rfl, rfl,
          Or.inl ⟨List.isEmpty_iff.mp hc, h.symm⟩⟩
      · rw [if_neg hc] at h
        cases ht : transformList (childList d) with
        | error e => rw [ht] at h; simp at h
        | ok tcs =>
          rw [ht] at h
          simp at h
          exact ⟨lay, sty, rfl, rfl,
            Or.inr ⟨Bool.not_eq_true _ ▸ hc, tcs, rfl, h.symm⟩⟩

theorem transformList_nil_eq : transformList [] = .ok [] := by
  simp [transformList]

theorem transformList_cons_eq (c : Val) (cs : List Val) :
    transformList (c :: cs) =
      (match transform_node_tree c with
       | .error e => .error e
       | .ok t =>
         match transformList cs with
         | .error e => .error e
         | .ok ts => .ok (t :: ts)) := by
  simp [transformList]

theorem transformList_elim {cs : List Val} {ts : List Val}
    (h : transformList cs = .ok ts) :
    List.Forall₂ (fun c t => transform_node_tree c = .ok t) cs ts := by
  induction cs generalizing ts with
  | nil =>
    rw [transformList_nil_eq] at h
    simp at h
    subst h
    exact List.Forall₂.nil
  | cons c cs' ih =>
    rw [transformList_cons_eq] at h
    cases hc : transform_node_tree c with
    | error e => rw [hc] at h; simp at h
    | ok t0 =>
      rw [hc] at h
      cases hrest : transformList cs' with
      | error e => rw [hrest] at h; simp at h
      | ok ts' =>
        rw [hrest] at h
        simp at h
        subst h
        exact List.Forall₂.cons hc (ih hrest)

/-! ### Totality on well-typed inputs -/

theorem extract_layout_total {d : Dict}
    (h : (match dictGet? d "absoluteBoundingBox" with
          | some v => isDict v
          | none => true) = true) :
    ∃ lay, extract_layout_info d = .ok lay := by
  cases hg : dictGet? d "absoluteBoundingBox" with
  | none => exact ⟨_, extract_layout_no_bbox hg⟩
  | some v =>
    rw [hg] at h
    cases v with
    | dict b => exact ⟨_, extract_layout_bbox hg⟩
    | null => simp [isDict] at h
    | bool b => simp [isDict] at h
    | num q => simp [isDict] at h
    | str s => simp [isDict] at h
    | list l => simp [isDict] at h

theorem solidPaint_total {paint : Dict}
    (h : paintOK (.dict paint) = true) :
    ∃ r, solidPaint paint = .ok r := by
  unfold paintOK at h
  simp only at h
  by_cases hcond :
      (isSolidStr (dictGetD paint "type" .null) && hasKey paint "color") = true
  · rw [if_pos hcond] at h
    cases hm : dictGetD paint "color" .null with
    | dict c =>
      rw [hm] at h
      have hcc := hcond
      rw [Bool.and_eq_true] at hcc
      obtain ⟨h1, h2⟩ := hcc
      have hc : dictGet? paint "color" = some (.dict c) := by
        unfold hasKey at h2
        cases hg : dictGet? paint "color" with
        | none => rw [hg] at h2; simp at h2
        | some w =>
          unfold dictGetD at hm
          rw [hg] at hm
          simp at hm
          rw [hm]
      have ht : dictGet? paint "type" = some (.str "SOLID") := by
        cases hg : dictGet? paint "type" with
        | none =>
          unfold dictGetD at h1
          rw [hg] at h1
          simp [isSolidStr] at h1
        | some w =>
          unfold dictGetD at h1
          rw [hg] at h1
          simp only [Option.getD_some] at h1
          cases w with
          | str s =>
            simp [isSolidStr] at h1
            rw [h1]
          | null => simp [isSolidStr] at h1
          | bool b => simp [isSolidStr] at h1
          | num q => simp [isSolidStr] at h1
          | list l => simp [isSolidStr] at h1
          | dict dd => simp [isSolidStr] at h1
      rw [Bool.and_eq_true] at h
      obtain ⟨h3, hbnum⟩ := h
      rw [Bool.and_eq_true] at h3
      obtain ⟨hrnum, hgnum⟩ := h3
      have hr : ∃ r : ℚ, dictGet? c "r" = some (.num r) := by
        unfold numAt at hrnum
        cases hg : dictGet? c "r" with
        | none => rw [hg] at hrnum; simp at hrnum
        | some w =>
          rw [hg] at hrnum
          cases w with
          | num q => exact ⟨q, rfl⟩
          | null => simp at hrnum
          | bool b => simp at hrnum
          | str s => simp at hrnum
          | list l => simp at hrnum
          | dict dd => simp at hrnum
      have hgc : ∃ g : ℚ, dictGet? c "g" = some (.num g) := by
        unfold numAt at hgnum
        cases hg : dictGet? c "g" with
        | none => rw [hg] at hgnum; simp at hgnum
        | some w =>
          rw [hg] at hgnum
          cases w with
          | num q => exact ⟨q, rfl⟩
          | null => simp at hgnum
          | bool b => simp at hgnum
          | str s => simp at hgnum
          | list l => simp at hgnum
          | dict dd => simp at hgnum
      have hbc : ∃ b : ℚ, dictGet? c "b" = some (.num b) := by
        unfold numAt at hbnum
        cases hg : dictGet? c "b" with
        | none => rw [hg] at hbnum; simp at hbnum
        | some w =>
          rw [hg] at hbnum
          cases w with
          | num q => exact ⟨q, rfl⟩
          | null => simp at hbnum
          | bool b => simp at hbnum
          | str s => simp at hbnum
          | list l => simp at hbnum
          | dict dd => simp at hbnum
      obtain ⟨r, hr⟩ := hr
      obtain ⟨g, hgc⟩ := hgc
      obtain ⟨b, hbc⟩ := hbc
      exact ⟨_, solidPaint_solid ht hc hr hgc hbc⟩
    | null => rw [hm] at h; simp at h
    | bool b => rw [hm] at h; simp at h
    | num q => rw [hm] at h; simp at h
    | str s => rw [hm] at h; simp at h
    | list l => rw [hm] at h; simp at h
  · exact ⟨none, solidPaint_skip (Bool.not_eq_true _ ▸ hcond)⟩

theorem fillEntries_total {node : Dict}
    (h : firstPaintOK (dictGet? node "fills") = true) :
    ∃ fe, fillEntries node = .ok fe := by
  cases hg : dictGet? node "fills" with
  | none => exact ⟨[], by unfold fillEntries; rw [hg]⟩
  | some v =>
    rw [hg] at h
    cases v with
    | list xs =>
      cases xs with
      | nil => exact ⟨[], by unfold fillEntries; rw [hg]⟩
      | cons f rest =>
        have hfp : paintOK f = true := by simpa [firstPaintOK] using h
        cases f with
        | dict paint =>
          obtain ⟨r, hsp⟩ := solidPaint_total hfp
          cases r with
          | some c =>
            refine ⟨[("fill", .dict c)], ?_⟩
            unfold fillEntries
            simp only [hg]
            rw [hsp]
          | none =>
            refine ⟨[], ?_⟩
            unfold fillEntries
            simp only [hg]
            rw [hsp]
        | null => simp [paintOK] at hfp
        | bool b => simp [paintOK] at hfp
        | num q => simp [paintOK] at hfp
        | str s => simp [paintOK] at hfp
        | list l => simp [paintOK] at hfp
    | null => exact ⟨[], by unfold fillEntries; rw [hg]⟩
    | bool b => exact ⟨[], by unfold fillEntries; rw [hg]⟩
    | num q => exact ⟨[], by unfold fillEntries; rw [hg]⟩
    | str s => exact ⟨[], by unfold fillEntries; rw [hg]⟩
    | dict dd => exact ⟨[], by unfold fillEntries; rw [hg]⟩

theorem strokeEntries_total {node : Dict}
    (h : firstPaintOK (dictGet? node "strokes") = true) :
    ∃ se, strokeEntries node = .ok se := by
  cases hg : dictGet? node "strokes" with
  | none => exact ⟨[], by unfold strokeEntries; rw [hg]⟩
  | some v =>
    rw [hg] at h
    cases v with
    | list xs =>
      cases xs with
      | nil => exact ⟨[], by unfold strokeEntries; rw [hg]⟩
      | cons s0 rest =>
        have hfp : paintOK s0 = true := by simpa [firstPaintOK] using h
        cases s0 with
        | dict paint =>
          obtain ⟨r, hsp⟩ := solidPaint_total hfp
          cases r with
          | some c =>
            refine ⟨("stroke", .dict c) :: weightEntry node, ?_⟩
            unfold strokeEntries
            simp only [hg]
            rw [hsp]
            rfl
          | none =>
            refine ⟨weightEntry node, ?_⟩
            unfold strokeEntries
            simp only [hg]
            rw [hsp]
        | null => simp [paintOK] at hfp
        | bool b => simp [paintOK] at hfp
        | num q => simp [paintOK] at hfp
        | str s => simp [paintOK] at hfp
        | list l => simp [paintOK] at hfp
    | null => exact ⟨[], by unfold strokeEntries; rw [hg]⟩
    | bool b => exact ⟨[], by unfold strokeEntries; rw [hg]⟩
    | num q => exact ⟨[], by unfold strokeEntries; rw [hg]⟩
    | str s => exact ⟨[], by unfold strokeEntries; rw [hg]⟩
    | dict dd => exact ⟨[], by unfold strokeEntries; rw [hg]⟩

theorem visibleFilter_total {es : List Val} (h : es.all isDict = true) :
    ∃ vs, visibleFilter es = .ok vs := by
  induction es with
  | nil => exact ⟨[], rfl⟩
  | cons e rest ih =>
    simp only [List.all_cons, Bool.and_eq_true] at h
    obtain ⟨vs, hvs⟩ := ih h.2
    cases e with
    | dict ed =>
      refine ⟨if truthy (dictGetD ed "visible" (.bool true)) then .dict ed :: vs
              else vs, ?_⟩
      unfold visibleFilter
      rw [hvs]
    | null => simp [isDict] at h
    | bool b => simp [isDict] at h
    | num q => simp [isDict] at h
    | str s => simp [isDict] at h
    | list l => simp [isDict] at h

theorem effectsEntries_total {node : Dict}
    (h : effectsOK (dictGet? node "effects") = true) :
    ∃ ee, effectsEntries node = .ok ee := by
  cases hg : dictGet? node "effects" with
  | none => exact ⟨[], by unfold effectsEntries; rw [hg]⟩
  | some v =>
    rw [hg] at h
    cases v with
    | list xs =>
      cases xs with
      | nil => exact ⟨[], by unfold effectsEntries; rw [hg]⟩
      | cons e es =>
        have hall : (e :: es).all isDict = true := by
          simpa [effectsOK] using h
        obtain ⟨vs, hvs⟩ := visibleFilter_total hall
        cases vs with
        | nil =>
          refine ⟨[], ?_⟩
          unfold effectsEntries
          simp only [hg]
          rw [hvs]
        | cons v0 vr =>
          refine ⟨[("effects", .list (v0 :: vr))], ?_⟩
          unfold effectsEntries
          simp only [hg]
          rw [hvs]
    | null => exact ⟨[], by unfold effectsEntries; rw [hg]⟩
    | bool b => exact ⟨[], by unfold effectsEntries; rw [hg]⟩
    | num q => exact ⟨[], by unfold effectsEntries; rw [hg]⟩
    | str s => exact ⟨[], by unfold effectsEntries; rw [hg]⟩
    | dict dd => exact ⟨[], by unfold effectsEntries; rw [hg]⟩

theorem extract_style_total {d : Dict} (h : nodeOK d = true) :
    ∃ s, extract_style_info d = .ok s := by
  unfold nodeOK at h
  rw [Bool.and_eq_true] at h
  obtain ⟨h3, he⟩ := h
  rw [Bool.and_eq_true] at h3
  obtain ⟨h2, hs⟩ := h3
  rw [Bool.and_eq_true] at h2
  obtain ⟨_, hf⟩ := h2
  obtain ⟨fe, hfe⟩ := fillEntries_total hf
  obtain ⟨se, hse⟩ := strokeEntries_total hs
  obtain ⟨ee, hee⟩ := effectsEntries_total he
  exact ⟨_, extract_style_intro hfe hse hee⟩

theorem extract_layout_total_of_nodeOK {d : Dict} (h : nodeOK d = true) :
    ∃ lay, extract_layout_info d = .ok lay := by
  unfold nodeOK at h
  rw [Bool.and_eq_true] at h
  obtain ⟨h3, _⟩ := h
  rw [Bool.and_eq_true] at h3
  obtain ⟨h2, _⟩ := h3
  rw [Bool.and_eq_true] at h2
  obtain ⟨hb, _⟩ := h2
  exact extract_layout_total hb

theorem transform_total_aux : ∀ n : ℕ,
    (∀ v : Val, sizeOf v ≤ n → wellTyped v = true →
      ∃ t, transform_node_tree v = .ok t) ∧
    (∀ cs : List Val, sizeOf cs ≤ n → wellTypedList cs = true →
      ∃ ts, transformList cs = .ok ts) := by
  intro n
  induction n using Nat.strong_induction_on with
  | _ n ih =>
    constructor
    · intro v hn hw
      cases v with
      | dict d =>
        simp only [wellTyped, Bool.and_eq_true] at hw
        obtain ⟨hok, hwl⟩ := hw
        obtain ⟨lay, hlay⟩ := extract_layout_total_of_nodeOK hok
        obtain ⟨sty, hsty⟩ := extract_style_total hok
        by_cases hc : (childList d).isEmpty = true
        · exact ⟨_, transform_dict_intro_nochild hlay hsty
            (List.isEmpty_iff.mp hc)⟩
        · have hlt : sizeOf (childList d) < n :=
            lt_of_lt_of_le (childList_sizeOf_lt d) hn
          obtain ⟨ts, hts⟩ := (ih _ hlt).2 (childList d) le_rfl hwl
          exact ⟨_, transform_dict_intro_child hlay hsty
            (Bool.not_eq_true _ ▸ hc) hts⟩
      | null => exact ⟨_, transform_not_dict rfl⟩
      | bool b => exact ⟨_, transform_not_dict rfl⟩
      | num q => exact ⟨_, transform_not_dict rfl⟩
      | str s => exact ⟨_, transform_not_dict rfl⟩
      | list l => exact ⟨_, transform_not_dict rfl⟩
    · intro cs hn hwl
      cases cs with
      | nil => exact ⟨[], transformList_nil_eq⟩
      | cons c cs' =>
        simp only [wellTypedList, Bool.and_eq_true] at hwl
        obtain ⟨hwc, hwcs⟩ := hwl
        have hc_lt : sizeOf c < n := by
          have : sizeOf c < sizeOf (c :: cs') := by simp; omega
          omega
        have hcs_lt : sizeOf cs' < n := by
          have : sizeOf cs' < sizeOf (c :: cs') := by simp
          omega
        obtain ⟨t, ht⟩ := (ih _ hc_lt).1 c le_rfl hwc
        obtain ⟨ts, hts⟩ := (ih _ hcs_lt).2 cs' le_rfl hwcs
        exact ⟨t :: ts, by rw [transformList_cons_eq, ht, hts]⟩

/-! ### The output invariant for `layout`/`styles` -/

theorem hasKey_baseOf_layout (d lay sty : Dict) :
    hasKey (baseOf d lay sty) "layout" = true := by
  unfold hasKey
  rw [dictGet?_baseOf_layout]
  rfl

theorem hasKey_baseOf_styles (d lay sty : Dict) :
    hasKey (baseOf d lay sty) "styles" = true := by
  unfold hasKey
  rw [dictGet?_baseOf_styles]
  rfl

theorem childList_congr {d₁ d₂ : Dict}
    (h : dictGet? d₁ "children" = dictGet? d₂ "children") :
    childList d₁ = childList d₂ := by
  unfold childList
  rw [h]

theorem dictGet?_baseOf_children (d lay sty : Dict) :
    dictGet? (baseOf d lay sty) "children" = dictGet? d "children" :=
  dictGet?_baseOf_other d lay sty (by decide) (by decide) (by decide)

theorem outOK_aux : ∀ n : ℕ,
    (∀ (v t : Val), sizeOf v ≤ n → transform_node_tree v = .ok t →
      outOK t = true) ∧
    (∀ (cs ts : List Val), sizeOf cs ≤ n → transformList cs = .ok ts →
      outListOK ts = true) := by
  intro n
  induction n using Nat.strong_induction_on with
  | _ n ih =>
    constructor
    · intro v t hn h
      cases v with
      | dict d =>
        obtain ⟨lay, sty, hlay, hsty, hcase⟩ := transform_dict_elim h
        rcases hcase with ⟨hc, rfl⟩ | ⟨hc, tcs, hts, rfl⟩
        · simp only [outOK, Bool.and_eq_true]
          constructor
          · rw [hasKey_baseOf_layout, hasKey_baseOf_styles]
            simp
          · have hcl : childList (baseOf d lay sty) = [] := by
              rw [childList_congr (dictGet?_baseOf_children d lay sty), hc]
            rw [hcl]
            simp [outListOK]
        · have hlen := (transformList_elim hts).length_eq
          have htcs_ne : tcs ≠ [] := by
            intro hnil
            rw [hnil] at hlen
            simp at hlen
            rw [hlen] at hc
            simp at hc
          simp only [outOK, Bool.and_eq_true]
          constructor
          · rw [hasKey_dictSet_other _ _ (by decide),
              hasKey_dictSet_other _ _ (by decide)]
            rw [hasKey_baseOf_layout, hasKey_baseOf_styles]
            simp
          · have hcl : childList (dictSet (baseOf d lay sty) "children"
                (.list tcs)) = tcs := by
              unfold childList
              rw [dictGet?_dictSet_same]
              cases tcs with
              | nil => exact absurd rfl htcs_ne
              | cons t0 tr => rfl
            rw [hcl]
            have hlt : sizeOf (childList d) < n :=
              lt_of_lt_of_le (childList_sizeOf_lt d) hn
            exact (ih _ hlt).2 (childList d) tcs le_rfl hts
      | null =>
        rw [transform_not_dict (v := Val.null) rfl] at h
        simp at h
        subst h
        simp [outOK, childList, outListOK, dictGet?]
      | bool b =>
        rw [transform_not_dict (v := Val.bool b) rfl] at h
        simp at h
        subst h
        simp [outOK, childList, outListOK, dictGet?]
      | num q =>
        rw [transform_not_dict (v := Val.num q) rfl] at h
        simp at h
        subst h
        simp [outOK, childList, outListOK, dictGet?]
      | str s =>
        rw [transform_not_dict (v := Val.str s) rfl] at h
        simp at h
        subst h
        simp [outOK, childList, outListOK, dictGet?]
      | list l =>
        rw [transform_not_dict (v := Val.list l) rfl] at h
        simp at h
        subst h
        simp [outOK, childList, outListOK, dictGet?]
    · intro cs ts hn h
      cases cs with
      | nil =>
        rw [transformList_nil_eq] at h
        simp at h
        subst h
        simp [outListOK]
      | cons c cs' =>
        rw [transformList_cons_eq] at h
        cases hc : transform_node_tree c with
        | error e => rw [hc] at h; simp at h
        | ok t0 =>
          rw [hc] at h
          cases hrest : transformList cs' with
          | error e => rw [hrest] at h; simp at h
          | ok ts' =>
            rw [hrest] at h
            simp at h
            subst h
            have hc_lt : sizeOf c < n := by
              have : sizeOf c < sizeOf (c :: cs') := by simp; omega
              omega
            have hcs_lt : sizeOf cs' < n := by
              have : sizeOf cs' < sizeOf (c :: cs') := by simp
              omega
            have h1 := (ih _ hc_lt).1 c t0 le_rfl hc
            have h2 := (ih _ hcs_lt).2 cs' ts' le_rfl hrest
            simp [outListOK, h1, h2]

/-! ### Small helpers for the claim proofs -/

theorem childList_none {node : Dict}
    (hg : dictGet? node "children" = none) : childList node = [] := by
  unfold childList
  rw [hg]

theorem childList_cons {node : Dict} {c : Val} {cs : List Val}
    (hg : dictGet? node "children" = some (.list (c :: cs))) :
    childList node = c :: cs := by
  unfold childList
  rw [hg]

theorem childList_empty_list {node : Dict}
    (hg : dictGet? node "children" = some (.list [])) :
    childList node = [] := by
  unfold childList
  rw [hg]

theorem childList_not_list {node : Dict} {cv : Val}
    (hg : dictGet? node "children" = some cv) (h : isList cv = false) :
    childList node = [] := by
  unfold childList
  rw [hg]
  cases cv with
  | list l => simp [isList] at h
  | null => rfl
  | bool b => rfl
  | num q => rfl
  | str s => rfl
  | dict dd => rfl

theorem isNonemptyList_not_list {v : Val} (h : isList v = false) :
    isNonemptyList (some v) = false := by
  cases v with
  | list l => simp [isList] at h
  | null => rfl
  | bool b => rfl
  | num q => rfl
  | str s => rfl
  | dict dd => rfl

theorem style_lookup_fe {fe se ty ee : Dict} {k : String} {v : Val}
    (h : dictGet? fe k = some v) :
    dictGet? (fe ++ se ++ ty ++ ee) k = some v := by
  simp only [List.append_assoc]
  exact dictGet?_append_left _ h

theorem style_lookup_se {fe se ty ee : Dict} {k : String} {v : Val}
    (h1 : dictGet? fe k = none) (h2 : dictGet? se k = some v) :
    dictGet? (fe ++ se ++ ty ++ ee) k = some v := by
  simp only [List.append_assoc]
  rw [dictGet?_append_right _ h1]
  exact dictGet?_append_left _ h2

theorem style_lookup_ee {fe se ty ee : Dict} {k : String} {v : Val}
    (h1 : dictGet? fe k = none) (h2 : dictGet? se k = none)
    (h3 : dictGet? ty k = none) (h4 : dictGet? ee k = some v) :
    dictGet? (fe ++ se ++ ty ++ ee) k = some v := by
  simp only [List.append_assoc]
  rw [dictGet?_append_right _ h1, dictGet?_append_right _ h2,
    dictGet?_append_right _ h3]
  exact h4

theorem style_lookup_none {fe se ty ee : Dict} {k : String}
    (h1 : dictGet? fe k = none) (h2 : dictGet? se k = none)
    (h3 : dictGet? ty k = none) (h4 : dictGet? ee k = none) :
    dictGet? (fe ++ se ++ ty ++ ee) k = none := by
  simp only [List.append_assoc]
  rw [dictGet?_append_right _ h1, dictGet?_append_right _ h2,
    dictGet?_append_right _ h3]
  exact h4

theorem layout_filter_not_null {node lay : Dict}
    (h : extract_layout_info node = .ok lay) :
    ∀ p ∈ lay, p.2 ≠ Val.null := by
  obtain ⟨b, _, rfl⟩ := extract_layout_elim h
  intro p hp
  have hpred := List.of_mem_filter hp
  simp only [Bool.not_eq_true'] at hpred
  intro hnull
  rw [hnull] at hpred
  simp [isNull] at hpred

theorem layoutPairs_no_bbox_mem {node : Dict} {p : String × Val}
    (hp : p ∈ (layoutPairs node []).filter (fun q => !isNull q.2)) :
    p.1 ∈ directLayoutKeys := by
  have hmem := List.mem_of_mem_filter hp
  have hpred := List.of_mem_filter hp
  unfold layoutPairs at hmem
  rcases List.mem_append.mp hmem with h4 | hmap
  · exfalso
    have : p.2 = Val.null := by
      simp [dictGetD, dictGet?] at h4
      rcases h4 with rfl | rfl | rfl | rfl <;> rfl
    rw [this] at hpred
    simp [isNull] at hpred
  · rcases List.mem_map.mp hmap with ⟨k, hk, rfl⟩
    simpa using hk

theorem contains_of_mem {l : List String} {k : String} (h : k ∈ l) :
    l.contains k = true := by
  induction l with
  | nil => simp at h
  | cons a l ih =>
    rcases List.mem_cons.mp h with rfl | h'
    · simp [List.contains_cons]
    · simp [List.contains_cons]
      exact Or.inr h'

theorem no_bbox_key_none (node : Dict) {k : String}
    (hk : k ∉ directLayoutKeys) :
    dictGet? ((layoutPairs node []).filter (fun q => !isNull q.2)) k = none :=
  dictGet?_none_of_keys fun p hp hpk =>
    hk (hpk ▸ layoutPairs_no_bbox_mem hp)

/-! ### The claims -/

/-- Claim C7: every key whose source value is absent or null is dropped by
the Layout Extractor (no null value survives in the result); a Node without
`absoluteBoundingBox` extracts successfully with `x`, `y`, `width`, `height`
all absent; and a Node with no bounding box and none of the twelve direct
layout keys yields exactly the empty mapping. -/
theorem C7_layout_omission (node : Dict) :
    (∀ lay, extract_layout_info node = .ok lay → ∀ p ∈ lay, p.2 ≠ Val.null) ∧
    (dictGet? node "absoluteBoundingBox" = none →
      ∃ lay, extract_layout_info node = .ok lay ∧
        dictGet? lay "x" = none ∧ dictGet? lay "y" = none ∧
        dictGet? lay "width" = none ∧ dictGet? lay "height" = none) ∧
    (dictGet? node "absoluteBoundingBox" = none →
      (∀ k ∈ directLayoutKeys, dictGet? node k = none) →
      extract_layout_info node = .ok []) := by
  refine ⟨fun lay h => layout_filter_not_null h, fun hb => ?_, fun hb hd => ?_⟩
  · exact ⟨_, extract_layout_no_bbox hb,
      no_bbox_key_none node (by decide), no_bbox_key_none node (by decide),
      no_bbox_key_none node (by decide), no_bbox_key_none node (by decide)⟩
  · rw [extract_layout_no_bbox hb]
    have hnil : (layoutPairs node []).filter (fun q => !isNull q.2) = [] := by
      rw [List.filter_eq_nil_iff]
      intro p hp
      unfold layoutPairs at hp
      rcases List.mem_append.mp hp with h4 | hmap
      · have : p.2 = Val.null := by
          simp [dictGetD, dictGet?] at h4
          rcases h4 with rfl | rfl | rfl | rfl <;> rfl
        rw [this]
        simp [isNull]
      · rcases List.mem_map.mp hmap with ⟨k, hk, rfl⟩
        have hknone : dictGet? node k = none := hd k (by simpa using hk)
        simp [dictGetD, hknone, isNull]
    rw [hnil]

/-- Witness for claim C7 at the empty node: no bounding box and no direct
layout keys, so the layout is exactly empty. -/
theorem C7_layout_omission_witness : extract_layout_info [] = .ok [] :=
  (C7_layout_omission []).2.2 rfl (fun _ _ => rfl)

/-- Claim C8: a root value that is not a mapping transforms to exactly the
empty mapping, with no error. -/
theorem C8_nonmapping_root (v : Val) (h : isDict v = false) :
    transform_node_tree v = .ok (.dict []) :=
  transform_not_dict h

/-- Witness for claim C8 at the number 3. -/
theorem C8_nonmapping_root_witness :
    transform_node_tree (.num 3) = .ok (.dict []) :=
  C8_nonmapping_root (.num 3) rfl

/-- Claim C9: the Field Pruner is idempotent, and no key of the fixed
ignore set appears in its output. -/
theorem C9_prune_idempotent (n : Dict) :
    prune_node (prune_node n) = prune_node n ∧
    ∀ k ∈ ignoredKeys, dictGet? (prune_node n) k = none := by
  constructor
  · unfold prune_node
    rw [List.filter_filter]
    simp
  · intro k hk
    refine dictGet?_none_of_keys (fun p hp hpk => ?_)
    have h1 := mem_prune_not_ignored hp
    rw [hpk, contains_of_mem hk] at h1
    exact Bool.noConfusion h1

/-- Witness for claim C9: pruning a node carrying the ignored key `id`
removes it, and re-pruning changes nothing. -/
theorem C9_prune_idempotent_witness :
    prune_node (prune_node [("id", Val.num 1)]) =
      prune_node [("id", Val.num 1)] ∧
    dictGet? (prune_node [("id", Val.num 1)]) "id" = none :=
  ⟨(C9_prune_idempotent [("id", Val.num 1)]).1,
   (C9_prune_idempotent [("id", Val.num 1)]).2 "id" (by decide)⟩

/-- Counterexample to claim C2: a Node carrying `strokeWeight` but no
`strokes` key extracts to the empty style mapping — the claimed
`strokeWeight` key is not emitted, because the check sits inside the
strokes block (transform.py:51-52). -/
theorem C2_cex :
    extract_style_info [("strokeWeight", Val.num 2)] = .ok [] ∧
    hasKey ([] : Dict) "strokeWeight" = false :=
  ⟨rfl, rfl⟩

/-- Claim C2 as amended: when the Node carries `strokeWeight` and the style
extraction succeeds, the output carries `strokeWeight` with the same value
exactly when `strokes` is a non-empty sequence (regardless of whether the
first stroke is solid); when `strokes` is absent, empty, or not a sequence,
no `strokeWeight` key is emitted. -/
theorem C2_strokeWeight (node s : Dict) (w : Val)
    (hok : extract_style_info node = .ok s)
    (hw : dictGet? node "strokeWeight" = some w) :
    (isNonemptyList (dictGet? node "strokes") = true →
      dictGet? s "strokeWeight" = some w) ∧
    (isNonemptyList (dictGet? node "strokes") = false →
      dictGet? s "strokeWeight" = none) := by
  obtain ⟨fe, se, ee, hfe, hse, hee, rfl⟩ := style_ok_elim hok
  have hfe_none : dictGet? fe "strokeWeight" = none :=
    fillEntries_get_none hfe (by decide)
  have hty_none : dictGet? (typoEntries node) "strokeWeight" = none :=
    typoEntries_get_none node (by decide)
  have hee_none : dictGet? ee "strokeWeight" = none :=
    effectsEntries_get_none hee (by decide)
  constructor
  · intro hne
    rcases strokeEntries_elim hse with ⟨hf, _⟩ | ⟨_, hcase⟩
    · rw [hne] at hf; exact Bool.noConfusion hf
    · have hse_w : dictGet? se "strokeWeight" = some w := by
        rcases hcase with rfl | ⟨c, rfl⟩
        · rw [weightEntry_get]; exact hw
        · simp only [dictGet?, if_neg (by decide : ¬("stroke" = "strokeWeight"))]
          rw [weightEntry_get]; exact hw
      exact style_lookup_se hfe_none hse_w
  · intro hne
    rcases strokeEntries_elim hse with ⟨_, rfl⟩ | ⟨ht, _⟩
    · exact style_lookup_none hfe_none rfl hty_none hee_none
    · rw [hne] at ht; exact Bool.noConfusion ht

/-- Witness for the amended claim C2: with a non-empty `strokes` whose
first entry is non-solid, `strokeWeight` is emitted verbatim; with
`strokes` absent it is not. -/
theorem C2_strokeWeight_witness :
    dictGet? [("strokeWeight", Val.num 2)] "strokeWeight" =
      some (Val.num 2) ∧
    dictGet? ([] : Dict) "strokeWeight" = none :=
  ⟨(C2_strokeWeight
      [("strokes", Val.list [Val.dict []]), ("strokeWeight", Val.num 2)]
      [("strokeWeight", Val.num 2)] (Val.num 2) rfl rfl).1 rfl,
   (C2_strokeWeight [("strokeWeight", Val.num 2)] [] (Val.num 2)
      rfl rfl).2 rfl⟩

/-- Claim C4: fill extraction looks only at the first entry of a non-empty
`fills` sequence.  When that entry has type `SOLID` and a color mapping
with numeric channels in `[0, 1]`, the output `fill` is `{r, g, b, a}` with
the channels scaled by 255 and rounded (round half to even, Python's
`round`) and `a` the entry's `opacity`, defaulting to `1.0`; when the first
entry is not solid, no `fill` key is emitted even if later entries are
solid. -/
theorem C4_fill (node s : Dict) (paint : Dict) (rest : List Val)
    (hok : extract_style_info node = .ok s)
    (hf : dictGet? node "fills" = some (.list (.dict paint :: rest))) :
    (∀ (c : Dict) (r g b : ℚ),
      dictGet? paint "type" = some (.str "SOLID") →
      dictGet? paint "color" = some (.dict c) →
      dictGet? c "r" = some (.num r) → dictGet? c "g" = some (.num g) →
      dictGet? c "b" = some (.num b) →
      0 ≤ r → r ≤ 1 → 0 ≤ g → g ≤ 1 → 0 ≤ b → b ≤ 1 →
      dictGet? s "fill" = some (.dict
        [("r", .num (pyRound (r * 255))), ("g", .num (pyRound (g * 255))),
         ("b", .num (pyRound (b * 255))),
         ("a", dictGetD paint "opacity" (.num 1))])) ∧
    (isSolidStr (dictGetD paint "type" .null) = false →
      dictGet? s "fill" = none) := by
  obtain ⟨fe, se, ee, hfe, hse, hee, rfl⟩ := style_ok_elim hok
  constructor
  · intro c r g b ht hc hr hg hb _ _ _ _ _ _
    have hsp := solidPaint_solid ht hc hr hg hb
    have hcalc : fillEntries node = .ok [("fill", .dict
        [("r", .num (pyRound (r * 255))), ("g", .num (pyRound (g * 255))),
         ("b", .num (pyRound (b * 255))),
         ("a", dictGetD paint "opacity" (.num 1))])] := by
      rw [fillEntries_first hf, hsp]
    rw [hcalc] at hfe
    have hfe2 := (Except.ok.inj hfe).symm
    refine style_lookup_fe ?_
    rw [hfe2]
    simp [dictGet?]
  · intro hns
    have hsp : solidPaint paint = .ok none := solidPaint_skip (by rw [hns]; rfl)
    have hcalc : fillEntries node = .ok [] := by
      rw [fillEntries_first hf, hsp]
    rw [hcalc] at hfe
    have hfe2 := (Except.ok.inj hfe).symm
    refine style_lookup_none ?_ (strokeEntries_get_none hse (by decide)
      (by decide)) (typoEntries_get_none node (by decide))
      (effectsEntries_get_none hee (by decide))
    rw [hfe2]
    rfl

/-- Witness for claim C4 at the spec's rounding example: a solid first fill
with color `{r: 1.0, g: 0.0, b: 0.5}` and no `opacity` yields
`fill = {r: 255, g: 0, b: 128, a: 1.0}` (128 because Python's round is half
to even). -/
theorem C4_fill_witness :
    dictGet? [("fill", Val.dict
        [("r", Val.num (pyRound (1 * 255))),
         ("g", Val.num (pyRound (0 * 255))),
         ("b", Val.num (pyRound (1/2 * 255))), ("a", Val.num 1)])] "fill" =
      some (Val.dict
        [("r", Val.num (pyRound (1 * 255))),
         ("g", Val.num (pyRound (0 * 255))),
         ("b", Val.num (pyRound (1/2 * 255))), ("a", Val.num 1)]) ∧
    pyRound (1 * 255) = 255 ∧ pyRound (0 * 255) = 0 ∧
    pyRound (1/2 * 255) = 128 :=
  ⟨(C4_fill
      [("fills", Val.list [Val.dict
        [("type", Val.str "SOLID"),
         ("color", Val.dict
           [("r", Val.num 1), ("g", Val.num 0), ("b", Val.num (1/2))])]])]
      [("fill", Val.dict
        [("r", Val.num (pyRound (1 * 255))),
         ("g", Val.num (pyRound (0 * 255))),
         ("b", Val.num (pyRound (1/2 * 255))), ("a", Val.num 1)])]
      [("type", Val.str "SOLID"),
       ("color", Val.dict
         [("r", Val.num 1), ("g", Val.num 0), ("b", Val.num (1/2))])]
      [] rfl rfl).1
      [("r", Val.num 1), ("g", Val.num 0), ("b", Val.num (1/2))]
      1 0 (1/2) rfl rfl rfl rfl rfl (by norm_num) (by norm_num) (by norm_num)
      (by norm_num) (by norm_num) (by norm_num),
   by norm_num [pyRound], by norm_num [pyRound], by norm_num [pyRound]⟩

/-- Claim C6: for a Node with a non-empty `effects` sequence (of mappings
whose `visible` field, when present, is boolean), the output `effects`
equals the subsequence of entries whose `visible` is true or absent, in
order; when every entry is invisible, no `effects` key is emitted. -/
theorem C6_effects (node s : Dict) (es : List Val)
    (hok : extract_style_info node = .ok s)
    (hg : dictGet? node "effects" = some (.list es)) (hne : es ≠ [])
    (hb : ∀ e ∈ es, ∀ ed, e = Val.dict ed →
      (dictGet? ed "visible" = none ∨
       ∃ b, dictGet? ed "visible" = some (.bool b))) :
    (es.filter visibleTrueOrAbsent ≠ [] →
      dictGet? s "effects" =
        some (.list (es.filter visibleTrueOrAbsent))) ∧
    (es.filter visibleTrueOrAbsent = [] →
      dictGet? s "effects" = none) := by
  obtain ⟨fe, se, ee, hfe, hse, hee, rfl⟩ := style_ok_elim hok
  cases es with
  | nil => exact absurd rfl hne
  | cons e es' =>
    obtain ⟨vs, hvf, hcase⟩ := effectsEntries_elim2 hee hg
    have hspec : vs = (e :: es').filter visibleTrueOrAbsent :=
      visibleFilter_spec hvf hb
    have hfe_none : dictGet? fe "effects" = none :=
      fillEntries_get_none hfe (by decide)
    have hse_none : dictGet? se "effects" = none :=
      strokeEntries_get_none hse (by decide) (by decide)
    have hty_none : dictGet? (typoEntries node) "effects" = none :=
      typoEntries_get_none node (by decide)
    constructor
    · intro hfne
      rcases hcase with ⟨hnil, _⟩ | ⟨_, rfl⟩
      · rw [hnil] at hspec
        exact absurd hspec.symm hfne
      · refine style_lookup_ee hfe_none hse_none hty_none ?_
        rw [← hspec]
        rfl
    · intro hfnil
      rcases hcase with ⟨_, rfl⟩ | ⟨hvne, _⟩
      · exact style_lookup_none hfe_none hse_none hty_none rfl
      · rw [hspec, hfnil] at hvne
        exact absurd rfl hvne

/-- Witness for claim C6 at the spec's example: an invisible drop shadow
followed by a visible blur yields exactly the blur entry. -/
theorem C6_effects_witness :
    dictGet? [("effects", Val.list
        [Val.dict [("type", Val.str "BLUR"), ("visible", Val.bool true)]])]
      "effects" =
      some (.list
        [Val.dict [("type", Val.str "BLUR"), ("visible", Val.bool true)]]) :=
  (C6_effects
    [("effects", Val.list
      [Val.dict [("type", Val.str "DROP_SHADOW"), ("visible", Val.bool false)],
       Val.dict [("type", Val.str "BLUR"), ("visible", Val.bool true)]])]
    [("effects", Val.list
      [Val.dict [("type", Val.str "BLUR"), ("visible", Val.bool true)]])]
    [Val.dict [("type", Val.str "DROP_SHADOW"), ("visible", Val.bool false)],
     Val.dict [("type", Val.str "BLUR"), ("visible", Val.bool true)]]
    rfl rfl (by simp)
    (by
      intro e he ed heq
      simp at he
      rcases he with rfl | rfl <;>
        · injection heq with h
          subst h
          exact Or.inr ⟨_, rfl⟩)).1
    (by
      intro hcon
      exact List.cons_ne_nil _ _ hcon)

/-- Counterexample to claim C1: on the claim's own example — a first fill
of type `SOLID` whose `color` mapping lacks the `r`/`g`/`b` channels —
`transform_node_tree` raises (`color["r"]` is a KeyError) instead of
omitting the `fill` key. -/
theorem C1_cex :
    transform_node_tree (.dict [("fills", .list
      [.dict [("type", .str "SOLID"), ("color", .dict [])]])]) =
      .error () := by
  unfold transform_node_tree
  rfl

/-- Claim C1 as amended: the transform is total on inputs that are
well-typed where the code subscripts into them — `absoluteBoundingBox`,
when present, is a mapping; the first entry of a non-empty `fills` or
`strokes` sequence is a mapping whose `color` (when the entry passes the
solid-with-color test) is a mapping with numeric `r`, `g`, `b`; entries of
a non-empty `effects` sequence are mappings — recursively through non-empty
`children` sequences.  On such inputs, malformed or missing fields degrade
to an absent output key and no error is raised. -/
theorem C1_total (v : Val) (h : wellTyped v = true) :
    ∃ t, transform_node_tree v = .ok t :=
  (transform_total_aux (sizeOf v)).1 v le_rfl h

/-- Witness for the amended claim C1: a node whose first fill is solid but
has no `color` key (and an empty bounding box) transforms without error. -/
theorem C1_total_witness :
    ∃ t, transform_node_tree (.dict
      [("fills", .list [.dict [("type", .str "SOLID")]]),
       ("absoluteBoundingBox", .dict [])]) = .ok t :=
  C1_total _ (by
    have hc : childList
        [("fills", Val.list [Val.dict [("type", Val.str "SOLID")]]),
         ("absoluteBoundingBox", Val.dict [])] = [] := rfl
    simp only [wellTyped, hc, wellTypedList, Bool.and_true]
    rfl)

/-- Counterexample to claim C3: a mapping child list containing the
non-mapping value 5 transforms to a tree whose `children` element is the
empty mapping, which carries neither `layout` nor `styles`. -/
theorem C3_cex :
    transform_node_tree (.dict [("children", .list [.num 5])]) =
      .ok (.dict [("children", .list [.dict []]),
        ("layout", .dict []), ("styles", .dict [])]) ∧
    hasKey ([] : Dict) "layout" = false := by
  constructor
  · have h2 : transformList (childList [("children", Val.list [Val.num 5])]) =
        .ok [.dict []] := by
      rw [show childList [("children", Val.list [Val.num 5])] =
          [Val.num 5] from rfl]
      rw [transformList_cons_eq, transform_not_dict (v := Val.num 5) rfl,
        transformList_nil_eq]
    exact transform_dict_intro_child rfl rfl rfl h2
  · rfl

/-- Claim C3 as amended: every node of the output tree — the root and every
element of every `children` sequence at every depth — either carries both
`layout` and `styles`, or is the empty mapping produced from a non-mapping
input value. -/
theorem C3_layout_styles (v t : Val) (h : transform_node_tree v = .ok t) :
    outOK t = true :=
  (outOK_aux (sizeOf v)).1 v t le_rfl h

/-- Witness for the amended claim C3 at the empty node. -/
theorem C3_layout_styles_witness :
    outOK (.dict [("layout", .dict []), ("styles", .dict [])]) = true :=
  C3_layout_styles (Val.dict [])
    (Val.dict [("layout", Val.dict []), ("styles", Val.dict [])])
    (transform_dict_intro_nochild rfl rfl rfl)

/-- Counterexample to claim C5: a Node with `children: []` keeps a
`children` key in its output — the empty list survives the Field Pruner
(`children` is not in the ignore set) and the omission branch never
removes it. -/
theorem C5_cex :
    transform_node_tree (.dict [("children", .list [])]) =
      .ok (.dict [("children", .list []),
        ("layout", .dict []), ("styles", .dict [])]) ∧
    dictGet? [("children", Val.list []),
      ("layout", Val.dict []), ("styles", Val.dict [])] "children" =
      some (.list []) :=
  ⟨transform_dict_intro_nochild rfl rfl rfl, rfl⟩

/-- Claim C5 as amended: a non-empty `children` sequence is replaced by the
ordered sequence of recursively transformed children (same length, same
order, in-place); an absent `children` yields no `children` key; an empty
`children` sequence is retained verbatim (the key is not omitted). -/
theorem C5_children (d : Dict) (t : Dict)
    (h : transform_node_tree (.dict d) = .ok (.dict t)) :
    (∀ c cs, dictGet? d "children" = some (.list (c :: cs)) →
      ∃ tcs, transformList (c :: cs) = .ok tcs ∧
        dictGet? t "children" = some (.list tcs) ∧
        List.Forall₂ (fun c' t' => transform_node_tree c' = .ok t')
          (c :: cs) tcs) ∧
    (dictGet? d "children" = none → dictGet? t "children" = none) ∧
    (dictGet? d "children" = some (.list []) →
      dictGet? t "children" = some (.list [])) := by
  obtain ⟨lay, sty, _, _, hcase⟩ := transform_dict_elim h
  refine ⟨fun c cs hg => ?_, fun hg => ?_, fun hg => ?_⟩
  · have hcl : childList d = c :: cs := childList_cons hg
    rcases hcase with ⟨hc, _⟩ | ⟨_, tcs, hts, ht⟩
    · rw [hcl] at hc; exact List.noConfusion hc
    · rw [hcl] at hts
      have ht2 : t = dictSet (baseOf d lay sty) "children" (.list tcs) :=
        Val.dict.inj ht
      refine ⟨tcs, hts, ?_, transformList_elim hts⟩
      rw [ht2]
      exact dictGet?_dictSet_same _ _ _
  · have hcl : childList d = [] := childList_none hg
    rcases hcase with ⟨_, ht⟩ | ⟨hc, _⟩
    · have ht2 : t = baseOf d lay sty := Val.dict.inj ht
      rw [ht2, dictGet?_baseOf_children]
      exact hg
    · rw [hcl] at hc; exact Bool.noConfusion hc
  · have hcl : childList d = [] := childList_empty_list hg
    rcases hcase with ⟨_, ht⟩ | ⟨hc, _⟩
    · have ht2 : t = baseOf d lay sty := Val.dict.inj ht
      rw [ht2, dictGet?_baseOf_children]
      exact hg
    · rw [hcl] at hc; exact Bool.noConfusion hc

/-- Witness for the amended claim C5: a node with one non-mapping child
gets that child transformed (to the empty mapping) in place, in order. -/
theorem C5_children_witness :
    ∃ tcs, transformList [Val.num 7] = .ok tcs ∧
      dictGet? [("children", Val.list [Val.dict []]),
        ("layout", Val.dict []), ("styles", Val.dict [])] "children" =
        some (.list tcs) ∧
      List.Forall₂ (fun c' t' => transform_node_tree c' = .ok t')
        [Val.num 7] tcs :=
  (C5_children [("children", Val.list [Val.num 7])]
    [("children", Val.list [Val.dict []]),
     ("layout", Val.dict []), ("styles", Val.dict [])]
    (by
      have h2 : transformList (childList [("children", Val.list [Val.num 7])]) =
          .ok [.dict []] := by
        rw [show childList [("children", Val.list [Val.num 7])] =
            [Val.num 7] from rfl]
        rw [transformList_cons_eq, transform_not_dict (v := Val.num 7) rfl,
          transformList_nil_eq]
      exact transform_dict_intro_child rfl rfl rfl h2)).1
    (Val.num 7) [] rfl

/-- Counterexample to claim C10: a `children` value that is present but not
a sequence is not dropped — it survives pruning, so the output keeps the
`children` key with the original value. -/
theorem C10_cex :
    transform_node_tree (.dict [("children", .num 5)]) =
      .ok (.dict [("children", .num 5),
        ("layout", .dict []), ("styles", .dict [])]) ∧
    dictGet? [("children", Val.num 5),
      ("layout", Val.dict []), ("styles", Val.dict [])] "children" =
      some (.num 5) :=
  ⟨transform_dict_intro_nochild rfl rfl rfl, rfl⟩

/-- Claim C10 as amended: a `fills`, `strokes`, or `effects` value that is
present but not a sequence yields no `fill`, `stroke`, or `effects` key
respectively, and such values never themselves cause a failure (a node with
all three present and non-sequences extracts successfully); but a
`children` value that is present and not a sequence is retained verbatim in
the output rather than dropped. -/
theorem C10_nonlist (node : Dict) :
    (∀ fv s, dictGet? node "fills" = some fv → isList fv = false →
      extract_style_info node = .ok s → dictGet? s "fill" = none) ∧
    (∀ sv s, dictGet? node "strokes" = some sv → isList sv = false →
      extract_style_info node = .ok s → dictGet? s "stroke" = none) ∧
    (∀ ev s, dictGet? node "effects" = some ev → isList ev = false →
      extract_style_info node = .ok s → dictGet? s "effects" = none) ∧
    (∀ fv sv ev, dictGet? node "fills" = some fv → isList fv = false →
      dictGet? node "strokes" = some sv → isList sv = false →
      dictGet? node "effects" = some ev → isList ev = false →
      ∃ s, extract_style_info node = .ok s) ∧
    (∀ cv t, dictGet? node "children" = some cv → isList cv = false →
      transform_node_tree (.dict node) = .ok (.dict t) →
      dictGet? t "children" = some cv) := by
  refine ⟨fun fv s hg hnl hok => ?_, fun sv s hg hnl hok => ?_,
    fun ev s hg hnl hok => ?_, fun fv sv ev hgf hnf hgs hns hge hne => ?_,
    fun cv t hg hnl htr => ?_⟩
  · obtain ⟨fe, se, ee, hfe, hse, hee, rfl⟩ := style_ok_elim hok
    have hcalc : fillEntries node = .ok [] :=
      fillEntries_inactive (by rw [hg]; exact isNonemptyList_not_list hnl)
    rw [hcalc] at hfe
    have hfe2 := (Except.ok.inj hfe).symm
    refine style_lookup_none ?_ (strokeEntries_get_none hse (by decide)
      (by decide)) (typoEntries_get_none node (by decide))
      (effectsEntries_get_none hee (by decide))
    rw [hfe2]
    rfl
  · obtain ⟨fe, se, ee, hfe, hse, hee, rfl⟩ := style_ok_elim hok
    have hcalc : strokeEntries node = .ok [] :=
      strokeEntries_inactive (by rw [hg]; exact isNonemptyList_not_list hnl)
    rw [hcalc] at hse
    have hse2 := (Except.ok.inj hse).symm
    refine style_lookup_none (fillEntries_get_none hfe (by decide)) ?_
      (typoEntries_get_none node (by decide))
      (effectsEntries_get_none hee (by decide))
    rw [hse2]
    rfl
  · obtain ⟨fe, se, ee, hfe, hse, hee, rfl⟩ := style_ok_elim hok
    have hcalc : effectsEntries node = .ok [] :=
      effectsEntries_inactive (by rw [hg]; exact isNonemptyList_not_list hnl)
    rw [hcalc] at hee
    have hee2 := (Except.ok.inj hee).symm
    refine style_lookup_none (fillEntries_get_none hfe (by decide))
      (strokeEntries_get_none hse (by decide) (by decide))
      (typoEntries_get_none node (by decide)) ?_
    rw [hee2]
    rfl
  · exact ⟨_, extract_style_intro
      (fillEntries_inactive (by rw [hgf]; exact isNonemptyList_not_list hnf))
      (strokeEntries_inactive (by rw [hgs]; exact isNonemptyList_not_list hns))
      (effectsEntries_inactive (by rw [hge]; exact isNonemptyList_not_list hne))⟩
  · obtain ⟨lay, sty, _, _, hcase⟩ := transform_dict_elim htr
    have hcl : childList node = [] := childList_not_list hg hnl
    rcases hcase with ⟨_, ht⟩ | ⟨hc, _⟩
    · have ht2 : t = baseOf node lay sty := Val.dict.inj ht
      rw [ht2, dictGet?_baseOf_children]
      exact hg
    · rw [hcl] at hc; exact Bool.noConfusion hc

/-- Witness for the amended claim C10: with `fills` a mapping, `strokes` a
number, `effects` a string and `children` a number, the extractor succeeds
with no `fill`/`stroke`/`effects` keys and the transform keeps `children`
verbatim. -/
theorem C10_nonlist_witness :
    dictGet? ([] : Dict) "fill" = none ∧
    dictGet? [("fills", Val.dict []), ("strokes", Val.num 1),
      ("effects", Val.str "x"), ("children", Val.num 5),
      ("layout", Val.dict []), ("styles", Val.dict [])] "children" =
      some (.num 5) :=
  ⟨(C10_nonlist [("fills", Val.dict []), ("strokes", Val.num 1),
      ("effects", Val.str "x"), ("children", Val.num 5)]).1
      (Val.dict []) [] rfl rfl rfl,
   (C10_nonlist [("fills", Val.dict []), ("strokes", Val.num 1),
      ("effects", Val.str "x"), ("children", Val.num 5)]).2.2.2.2
      (Val.num 5) _ rfl rfl (transform_dict_intro_nochild rfl rfl rfl)⟩

end FigmaTransform
